import Mathlib

/-!
Verification of the firmware artifact-extraction scripts of THSBDK/HOME
(directory `IoT-Projekter/Tuya/Camera1`).

Buffers are modelled as `List Nat` of byte values (0..255); recovered
strings as `List Nat` of Unicode code points (Python `str` is a sequence
of code points, and every code point produced here is below 256).

The embedded functions are, in order:
  * `extract_ascii_strings`, `extract_utf16le_strings`
      from `tuya_binary_deep_scan.py` (the ByteRunScanner);
  * `uniq` (deep scan) and `uniq_preserve` (`tuya_rts3903_static_recon.py`);
  * `find_json_like`, `find_keys` with the `AES_KEY_HEX_RE` and
      `BASE64_KEY_RE` scanners, embedded with Python `re.findall`
      semantics (leftmost match, greedy quantifiers with backtracking,
      scan resumes after each match);
  * `asciiKvFindall` / `utf16KvFindall`, the `ASCII_KV_RE` and
      `UTF16_KV_RE` findall scans of `tuya_nvram_blob_detector.py`;
  * `scan_blob`, the blob-verdict engine of the same file (file I/O
      stripped: the function takes the bytes already read).
-/

/-- Printable ASCII test `32 <= b < 127` used by both string scanners. -/
def printableByte (b : Nat) : Bool := 32 ≤ b && b < 127

/-- Word character class `[A-Za-z0-9_]` of the regexes. -/
def wordByte (b : Nat) : Bool :=
  (48 ≤ b && b ≤ 57) || (65 ≤ b && b ≤ 90) || (97 ≤ b && b ≤ 122) || b == 95

/-- Value byte class `[^\x00\r\n]` of `ASCII_KV_RE`. -/
def valueByte (b : Nat) : Bool := !(b == 0 || b == 13 || b == 10)

/-- Hex digit class `[0-9a-fA-F]` of `AES_KEY_HEX_RE`. -/
def isHexCh (c : Nat) : Bool :=
  (48 ≤ c && c ≤ 57) || (65 ≤ c && c ≤ 70) || (97 ≤ c && c ≤ 102)

/-- Base64 alphabet class `[A-Za-z0-9+/]` of `BASE64_KEY_RE`. -/
def isB64Ch (c : Nat) : Bool :=
  (48 ≤ c && c ≤ 57) || (65 ≤ c && c ≤ 90) || (97 ≤ c && c ≤ 122) || c == 43 || c == 47

/-- Code points of a Lean string literal, used to write concrete buffers
and recovered strings in theorem statements. -/
def strCodes (s : String) : List Nat := s.toList.map Char.toNat

/-! ### ByteRunScanner: `extract_ascii_strings` / `extract_utf16le_strings` -/

/-- Accumulator loop of `extract_ascii_strings`: `cur` is the pending run
of printable characters; a non-printable byte (or the end of the data)
flushes `cur` as a recovered string iff its length is at least `minLen`. -/
def extractAsciiAux (minLen : Nat) (cur : List Nat) : List Nat → List (List Nat)
  | [] => if minLen ≤ cur.length then [cur] else []
  | b :: rest =>
    if printableByte b then extractAsciiAux minLen (cur ++ [b]) rest
    else if minLen ≤ cur.length then cur :: extractAsciiAux minLen [] rest
    else extractAsciiAux minLen [] rest

/-- `extract_ascii_strings(data, min_len)`: single-byte printable runs of
length at least `minLen`, in scan order. -/
def extract_ascii_strings (data : List Nat) (minLen : Nat) : List (List Nat) :=
  extractAsciiAux minLen [] data

/-- Two-byte units of the buffer in order, dropping a trailing unpaired
byte: the `for i in range(0, len(data)-1, 2)` iteration. -/
def toPairs : List Nat → List (Nat × Nat)
  | a :: b :: rest => (a, b) :: toPairs rest
  | _ => []

/-- Accumulator loop of `extract_utf16le_strings` over two-byte units:
a unit extends the run iff its high byte is zero and its low byte is
printable ASCII. -/
def extractUtf16Aux (minLen : Nat) (cur : List Nat) : List (Nat × Nat) → List (List Nat)
  | [] => if minLen ≤ cur.length then [cur] else []
  | (lo, hi) :: rest =>
    if hi == 0 && printableByte lo then extractUtf16Aux minLen (cur ++ [lo]) rest
    else if minLen ≤ cur.length then cur :: extractUtf16Aux minLen [] rest
    else extractUtf16Aux minLen [] rest

/-- `extract_utf16le_strings(data, min_len)`: two-byte little-endian
printable runs of length at least `minLen`, in scan order. -/
def extract_utf16le_strings (data : List Nat) (minLen : Nat) : List (List Nat) :=
  extractUtf16Aux minLen [] (toPairs data)

/-! ### Deduplication and the json-like classifier -/

/-- Loop of `uniq` from `tuya_binary_deep_scan.py`: `seen` is the set of
already emitted strings. -/
def uniqAux (seen : List (List Nat)) : List (List Nat) → List (List Nat)
  | [] => []
  | s :: rest => if s ∈ seen then uniqAux seen rest else s :: uniqAux (s :: seen) rest

/-- `uniq(seq)`: first-seen-order deduplication. -/
def uniq (l : List (List Nat)) : List (List Nat) := uniqAux [] l

/-- Loop of `uniq_preserve` from `tuya_rts3903_static_recon.py` (the same
algorithm written a second time in that file). -/
def uniqPreserveAux (seen : List (List Nat)) : List (List Nat) → List (List Nat)
  | [] => []
  | x :: rest =>
    if x ∈ seen then uniqPreserveAux seen rest else x :: uniqPreserveAux (x :: seen) rest

/-- `uniq_preserve(seq)`: first-seen-order deduplication. -/
def uniq_preserve (l : List (List Nat)) : List (List Nat) := uniqPreserveAux [] l

/-- Membership test of `find_json_like`: the string contains `{` (123),
`}` (125) and `:` (58) and has length at most 512. -/
def jsonLikePred (s : List Nat) : Bool :=
  s.contains 123 && s.contains 125 && s.contains 58 && s.length ≤ 512

/-- `find_json_like(strings)`: the strings passing `jsonLikePred`, in
order, deduplicated by `uniq`. -/
def find_json_like (strings : List (List Nat)) : List (List Nat) :=
  uniq (strings.filter jsonLikePred)

/-! ### Word-boundary regex scanners: `AES_KEY_HEX_RE` and `BASE64_KEY_RE`

Python `re.findall` scans left to right, tries a match at every position,
and resumes after the end of each match. `\b` holds between two positions
exactly when one side is a word character (`[A-Za-z0-9_]`) and the other
is not (positions outside the string count as non-word). The scanners
below thread the previous character through the scan to decide `\b`. -/

/-- Word status of an optional character; `none` stands for a position
outside the string. -/
def wordOpt : Option Nat → Bool
  | none => false
  | some c => wordByte c

/-- Word boundary `\b` between two adjacent positions. -/
def boundaryB (a b : Option Nat) : Bool := wordOpt a != wordOpt b

/-- One alternative `\b[0-9a-fA-F]{n}\b` of `AES_KEY_HEX_RE` tried at the
current position (`prev` is the preceding character). -/
def hexTryLen (prev : Option Nat) (l : List Nat) (n : Nat) : Option (List Nat × List Nat) :=
  let tok := l.take n
  if tok.length == n && tok.all isHexCh && boundaryB prev tok.head? &&
      boundaryB tok.getLast? (l.drop n).head? then
    some (tok, l.drop n)
  else none

/-- `AES_KEY_HEX_RE` at one position: the alternatives for 32, 48 and 64
hex digits are tried in the order they are written in the pattern. -/
def hexTryAt (prev : Option Nat) (l : List Nat) : Option (List Nat × List Nat) :=
  (hexTryLen prev l 32).orElse fun _ => (hexTryLen prev l 48).orElse fun _ => hexTryLen prev l 64

/-- Findall loop for `AES_KEY_HEX_RE`: on a match emit the token and
resume after it, otherwise advance one character. -/
def hexScan : Nat → Option Nat → List Nat → List (List Nat)
  | 0, _, _ => []
  | _ + 1, _, [] => []
  | f + 1, prev, c :: rest =>
    match hexTryAt prev (c :: rest) with
    | some (tok, rest') => tok :: hexScan f tok.getLast? rest'
    | none => hexScan f (some c) rest

/-- `AES_KEY_HEX_RE.findall(s)`. -/
def aesHexFindall (s : List Nat) : List (List Nat) := hexScan (s.length + 1) none s

/-- Padding step of `BASE64_KEY_RE`: with `n` base64 characters matched,
try `p` padding `=` characters first (greedy), then backtrack down to
none, returning the first split whose trailing `\b` holds. -/
def b64TryPad (l : List Nat) (n : Nat) : Nat → Option (List Nat × List Nat)
  | 0 =>
    if boundaryB (l.take n).getLast? (l.drop n).head? then some (l.take n, l.drop n)
    else none
  | p + 1 =>
    if boundaryB (l.take (n + p + 1)).getLast? (l.drop (n + p + 1)).head? then
      some (l.take (n + p + 1), l.drop (n + p + 1))
    else b64TryPad l n p

/-- Run-length step of `BASE64_KEY_RE`: `{22,}` is greedy, so the number
`n` of base64 characters starts at the full run length and backtracks
down to 22, each time trying the padding and trailing boundary. -/
def b64SearchN (l : List Nat) : Nat → Option (List Nat × List Nat)
  | 0 => none
  | n + 1 =>
    if n + 1 < 22 then none
    else
      match b64TryPad l (n + 1) (min 2 ((l.drop (n + 1)).takeWhile (fun c => c == 61)).length) with
      | some r => some r
      | none => b64SearchN l n

/-- `BASE64_KEY_RE` at one position: leading `\b`, then the greedy run
and padding search. -/
def b64TryAt (prev : Option Nat) (l : List Nat) : Option (List Nat × List Nat) :=
  if boundaryB prev l.head? then b64SearchN l (l.takeWhile isB64Ch).length else none

/-- Findall loop for `BASE64_KEY_RE`. -/
def b64Scan : Nat → Option Nat → List Nat → List (List Nat)
  | 0, _, _ => []
  | _ + 1, _, [] => []
  | f + 1, prev, c :: rest =>
    match b64TryAt prev (c :: rest) with
    | some (tok, rest') => tok :: b64Scan f tok.getLast? rest'
    | none => b64Scan f (some c) rest

/-- `BASE64_KEY_RE.findall(s)`. -/
def b64Findall (s : List Nat) : List (List Nat) := b64Scan (s.length + 1) none s

/-- `find_keys(strings)` from `tuya_binary_deep_scan.py`: hex-key and
base64-key candidates collected over all strings, each list deduplicated
by `uniq` (the matches are already `str`, so the decode branch of the
comprehension is the identity). -/
def find_keys (strings : List (List Nat)) : List (List Nat) × List (List Nat) :=
  (uniq ((strings.map aesHexFindall).flatten), uniq ((strings.map b64Findall).flatten))

/-! ### KeyValueExtractor: `ASCII_KV_RE` and `UTF16_KV_RE` findall -/

/-- `ASCII_KV_RE` = `([A-Za-z0-9_]{2,32})=([^\x00\r\n]{1,128})` tried at
the current position. The greedy key `{2,32}` can only succeed on the
whole word run starting here (shorter attempts end on a word character,
never on `=`), so it matches iff that run has length 2..32 and is
followed by `=`; the greedy value is the following run of value bytes
capped at 128, required non-empty. -/
def asciiKvTry (l : List Nat) : Option (List Nat × List Nat × List Nat) :=
  let key := l.takeWhile wordByte
  if 2 ≤ key.length && key.length ≤ 32 then
    match l.dropWhile wordByte with
    | 61 :: rest2 =>
      let v := (rest2.takeWhile valueByte).take 128
      if 1 ≤ v.length then some (key, v, rest2.drop v.length) else none
    | _ => none
  else none

/-- Findall loop for `ASCII_KV_RE`. -/
def asciiKvScan : Nat → List Nat → List (List Nat × List Nat)
  | 0, _ => []
  | _ + 1, [] => []
  | f + 1, c :: rest =>
    match asciiKvTry (c :: rest) with
    | some (k, v, rest') => (k, v) :: asciiKvScan f rest'
    | none => asciiKvScan f rest

/-- `ASCII_KV_RE.findall(data)`: raw byte groups of each match. -/
def asciiKvFindall (data : List Nat) : List (List Nat × List Nat) :=
  asciiKvScan (data.length + 1) data

/-- Maximal run of two-byte units satisfying `p`, returned flattened,
with the unconsumed rest of the byte list. -/
def takeUnits (p : Nat → Nat → Bool) : List Nat → List Nat × List Nat
  | a :: b :: rest =>
    if p a b then
      let (u, r) := takeUnits p rest
      (a :: b :: u, r)
    else ([], a :: b :: rest)
  | l => ([], l)

/-- Like `takeUnits` but capped at `n` units. -/
def takeUnitsN (p : Nat → Nat → Bool) : Nat → List Nat → List Nat × List Nat
  | 0, l => ([], l)
  | n + 1, a :: b :: rest =>
    if p a b then
      let (u, r) := takeUnitsN p n rest
      (a :: b :: u, r)
    else ([], a :: b :: rest)
  | _ + 1, l => ([], l)

/-- `UTF16_KV_RE` = `((?:[A-Za-z0-9_]\x00){2,32})=((?:.\x00){2,128})`
tried at the current position. As for the ASCII pattern, the greedy key
can only succeed on the whole unit run (a shorter attempt ends on the
word byte of the next unit, never on `=`), so the run must have 2..32
units and be followed by the single byte `=`. A value unit is any byte
except `\n` (the regex `.` without DOTALL) followed by a zero byte;
2..128 units, greedy, nothing after them to force backtracking. -/
def utf16KvTry (l : List Nat) : Option (List Nat × List Nat × List Nat) :=
  let ku := takeUnits (fun lo hi => wordByte lo && hi == 0) l
  if 2 ≤ ku.1.length / 2 && ku.1.length / 2 ≤ 32 then
    match ku.2 with
    | 61 :: rest2 =>
      let vu := takeUnitsN (fun a b => !(a == 10) && b == 0) 128 rest2
      if 2 ≤ vu.1.length / 2 then some (ku.1, vu.1, vu.2) else none
    | _ => none
  else none

/-- Findall loop for `UTF16_KV_RE`. -/
def utf16KvScan : Nat → List Nat → List (List Nat × List Nat)
  | 0, _ => []
  | _ + 1, [] => []
  | f + 1, c :: rest =>
    match utf16KvTry (c :: rest) with
    | some (k, v, rest') => (k, v) :: utf16KvScan f rest'
    | none => utf16KvScan f rest

/-- `UTF16_KV_RE.findall(data)`: raw byte groups of each match. -/
def utf16KvFindall (data : List Nat) : List (List Nat × List Nat) :=
  utf16KvScan (data.length + 1) data

/-! ### BlobVerdictEngine: `scan_blob` -/

/-- Python `bytes.decode("ascii", "ignore")`: bytes at or above 128 are
dropped, the rest map to their own code points. -/
def asciiDecode (l : List Nat) : List Nat := l.filter (fun b => b < 128)

/-- Python `bytes.decode("utf-16le", "ignore")` on the captured KV
groups. Every two-byte unit captured by `UTF16_KV_RE` has a zero high
byte, so each unit decodes to the code point of its low byte (no
surrogates, nothing for `"ignore"` to drop). -/
def utf16Decode (l : List Nat) : List Nat := (toPairs l).map (fun u => u.1)

/-- `KEYWORDS` of `tuya_nvram_blob_detector.py`, as byte strings. -/
def KEYWORDS : List (List Nat) :=
  [strCodes "UUID", strCodes "AUTHKEY", strCodes "P2PID", strCodes "PID",
   strCodes "MAC", strCodes "SN",
   strCodes "uuid", strCodes "authkey", strCodes "p2pid", strCodes "pid",
   strCodes "mac", strCodes "sn",
   strCodes "localKey", strCodes "devId", strCodes "productKey"]

/-- Does `pat` occur at the start of `l`? -/
def startsWithL (pat l : List Nat) : Bool :=
  match pat, l with
  | [], _ => true
  | _ :: _, [] => false
  | a :: ps, b :: ls => a == b && startsWithL ps ls

/-- Python `pat in data` for byte strings: contiguous occurrence. -/
def hasSub (pat : List Nat) : List Nat → Bool
  | [] => startsWithL pat []
  | b :: rest => startsWithL pat (b :: rest) || hasSub pat rest

/-- Keyword gate of `scan_blob`: the keywords present in the raw buffer,
in `KEYWORDS` order, ascii-decoded. -/
def keywordHits (data : List Nat) : List (List Nat) :=
  (KEYWORDS.filter (fun kw => hasSub kw data)).map asciiDecode

/-- Decoded ASCII KV pairs as `scan_blob` stores them. -/
def asciiKvPairs (data : List Nat) : List (List Nat × List Nat) :=
  (asciiKvFindall data).map (fun kv => (asciiDecode kv.1, asciiDecode kv.2))

/-- Decoded UTF-16LE KV pairs as `scan_blob` stores them. -/
def utf16KvPairs (data : List Nat) : List (List Nat × List Nat) :=
  (utf16KvFindall data).map (fun kv => (utf16Decode kv.1, utf16Decode kv.2))

/-- `len(set(data))`: the number of distinct byte values in the buffer. -/
def distinctCount (data : List Nat) : Nat :=
  (data.foldl (fun acc b => if b ∈ acc then acc else acc ++ [b]) []).length

/-- The `hits` record returned by `scan_blob`. A `none` field models the
key being absent from the Python dict; `low_entropy_hint` is present in
the dict (with value `True`) iff the Bool is `true`. -/
structure Verdict where
  keyword_hits : Option (List (List Nat))
  ascii_kv : Option (List (List Nat × List Nat))
  utf16_kv : Option (List (List Nat × List Nat))
  low_entropy_hint : Bool
  size : Nat
deriving DecidableEq, Repr

/-- Body of `scan_blob` after the size gate: the keyword, KV and entropy
gates, returning `none` when no signal fired. -/
def scanBlobBody (data : List Nat) : Option Verdict :=
  let kh := keywordHits data
  let ah := asciiKvPairs data
  let uh := utf16KvPairs data
  if kh = [] ∧ ah = [] ∧ uh = [] ∧ ¬ distinctCount data < 200 then none
  else
    some { keyword_hits := if kh = [] then none else some kh
           ascii_kv := if ah = [] then none else some ah
           utf16_kv := if uh = [] then none else some uh
           low_entropy_hint := decide (distinctCount data < 200)
           size := data.length }

/-- `scan_blob(path)` with the file already read into `data`: size gate
`[32, 1024*1024]`, then the signal gates. -/
def scan_blob (data : List Nat) : Option Verdict :=
  if data.length < 32 ∨ 1048576 < data.length then none else scanBlobBody data

/-! ### Helper lemmas -/

/-- The `seen`-filtered loop of `uniq` keeps exactly the input elements
not already seen. -/
theorem mem_uniqAux (x : List Nat) :
    ∀ (l seen : List (List Nat)), x ∈ uniqAux seen l ↔ x ∈ l ∧ x ∉ seen := by
  intro l
  induction l with
  | nil => intro seen; simp [uniqAux]
  | cons s rest ih =>
    intro seen
    by_cases hs : s ∈ seen
    · simp only [uniqAux, if_pos hs, ih, List.mem_cons]
      constructor
      · rintro ⟨hm, hn⟩; exact ⟨Or.inr hm, hn⟩
      · rintro ⟨hm | hm, hn⟩
        · subst hm; exact absurd hs hn
        · exact ⟨hm, hn⟩
    · simp only [uniqAux, List.mem_cons, if_neg hs, ih]
      constructor
      · rintro (rfl | ⟨hm, hn⟩)
        · exact ⟨Or.inl rfl, hs⟩
        · exact ⟨Or.inr hm, fun h => hn (Or.inr h)⟩
      · rintro ⟨rfl | hm, hn⟩
        · exact Or.inl rfl
        · rcases eq_or_ne x s with rfl | hx
          · exact Or.inl rfl
          · exact Or.inr ⟨hm, fun h => h.elim hx hn⟩

/-- Membership in `uniq` is membership in the input. -/
theorem mem_uniq (x : List Nat) (l : List (List Nat)) : x ∈ uniq l ↔ x ∈ l := by
  simp [uniq, mem_uniqAux]

/-- The loops of `uniq_preserve` and `uniq` are the same function. -/
theorem uniqPreserveAux_eq_uniqAux :
    ∀ (l seen : List (List Nat)), uniqPreserveAux seen l = uniqAux seen l := by
  intro l
  induction l with
  | nil => intro seen; rfl
  | cons s rest ih =>
    intro seen
    by_cases hs : s ∈ seen
    · simp [uniqPreserveAux, uniqAux, if_pos hs, ih]
    · simp [uniqPreserveAux, uniqAux, if_neg hs, ih]

/-- Membership in `uniq_preserve` is membership in the input. -/
theorem mem_uniq_preserve (x : List Nat) (l : List (List Nat)) :
    x ∈ uniq_preserve l ↔ x ∈ l := by
  simp [uniq_preserve, uniqPreserveAux_eq_uniqAux, mem_uniqAux]

/-- A run of `p`-elements followed by a failing element: `takeWhile` is
exactly the run. -/
theorem takeWhile_append_run {p : Nat → Bool} :
    ∀ (w : List Nat) (x : Nat) (t : List Nat), (∀ c ∈ w, p c = true) → p x = false →
      (w ++ x :: t).takeWhile p = w := by
  intro w x t hw hx
  induction w with
  | nil => simp [List.takeWhile, hx]
  | cons c w ih =>
    have hc : p c = true := hw c (List.mem_cons_self _ _)
    simp only [List.cons_append, List.takeWhile_cons, hc, if_true]
    rw [ih (fun d hd => hw d (List.mem_cons_of_mem _ hd))]

/-- A run of `p`-elements followed by a failing element: `dropWhile` is
exactly what follows the run. -/
theorem dropWhile_append_run {p : Nat → Bool} :
    ∀ (w : List Nat) (x : Nat) (t : List Nat), (∀ c ∈ w, p c = true) → p x = false →
      (w ++ x :: t).dropWhile p = x :: t := by
  intro w x t hw hx
  induction w with
  | nil => simp [List.dropWhile, hx]
  | cons c w ih =>
    have hc : p c = true := hw c (List.mem_cons_self _ _)
    simp only [List.cons_append, List.dropWhile_cons, hc, if_true]
    exact ih (fun d hd => hw d (List.mem_cons_of_mem _ hd))

/-- Taking at most the `takeWhile` run takes within it. -/
theorem take_of_takeWhile {p : Nat → Bool} :
    ∀ (l : List Nat) (n : Nat), n ≤ (l.takeWhile p).length →
      l.take n = (l.takeWhile p).take n := by
  intro l
  induction l with
  | nil => intro n _; simp
  | cons c t ih =>
    intro n hn
    cases hc : p c with
    | true =>
      cases n with
      | zero => simp
      | succ m =>
        simp only [List.takeWhile_cons, hc, if_true] at hn ⊢
        simp only [List.take_succ_cons]
        rw [ih m (by simp only [List.length_cons] at hn; omega)]
    | false =>
      simp [List.takeWhile_cons, hc] at hn
      subst hn
      simp

/-- Every element taken from within the `takeWhile` run satisfies `p`. -/
theorem mem_take_takeWhile {p : Nat → Bool} (l : List Nat) (n : Nat)
    (hn : n ≤ (l.takeWhile p).length) : ∀ c ∈ l.take n, p c = true := by
  intro c hc
  rw [take_of_takeWhile l n hn] at hc
  exact List.mem_takeWhile_imp (List.take_subset _ _ hc)

/-- The fold building `set(data)` grows by at most one element per byte. -/
theorem distinctFold_length_le :
    ∀ (l acc : List Nat),
      (l.foldl (fun acc b => if b ∈ acc then acc else acc ++ [b]) acc).length ≤
        acc.length + l.length := by
  intro l
  induction l with
  | nil => intro acc; simp
  | cons b t ih =>
    intro acc
    simp only [List.foldl_cons, List.length_cons]
    by_cases hb : b ∈ acc
    · simp only [if_pos hb]
      exact Nat.le_trans (ih acc) (by omega)
    · simp only [if_neg hb]
      have := ih (acc ++ [b])
      simp only [List.length_append, List.length_cons, List.length_nil] at this
      omega

/-- A buffer of `n` bytes has at most `n` distinct byte values. -/
theorem distinctCount_le_length (data : List Nat) : distinctCount data ≤ data.length := by
  have := distinctFold_length_le data []
  simpa [distinctCount] using this

/-- Invariant of the single-byte run scanner: with a printable pending
run, every emitted string is at least `minLen` long and printable. -/
theorem extractAsciiAux_inv :
    ∀ (data : List Nat) (minLen : Nat) (cur : List Nat) (s : List Nat),
      (∀ c ∈ cur, printableByte c = true) →
      s ∈ extractAsciiAux minLen cur data →
      minLen ≤ s.length ∧ ∀ c ∈ s, printableByte c = true := by
  intro data
  induction data with
  | nil =>
    intro minLen cur s hcur hs
    simp only [extractAsciiAux] at hs
    split at hs
    · next hlen =>
      rcases List.mem_singleton.mp hs with rfl
      exact ⟨hlen, hcur⟩
    · simp at hs
  | cons b rest ih =>
    intro minLen cur s hcur hs
    simp only [extractAsciiAux] at hs
    split at hs
    · next hb =>
      refine ih minLen (cur ++ [b]) s (fun c hc => ?_) hs
      rcases List.mem_append.mp hc with h | h
      · exact hcur c h
      · rcases List.mem_singleton.mp h with rfl
        exact hb
    · split at hs
      · next hlen =>
        rcases List.mem_cons.mp hs with rfl | hs'
        · exact ⟨hlen, hcur⟩
        · exact ih minLen [] s (by simp) hs'
      · exact ih minLen [] s (by simp) hs

/-- Invariant of the two-byte run scanner: with a pending run whose
characters are printable low bytes of zero-high units of `ps0`, every
emitted string is at least `minLen` long and consists of such
characters; `ps` is the remaining unit list, drawn from `ps0`. -/
theorem extractUtf16Aux_inv :
    ∀ (ps : List (Nat × Nat)) (minLen : Nat) (cur : List Nat) (ps0 : List (Nat × Nat))
      (s : List Nat),
      (∀ c ∈ cur, printableByte c = true ∧ (c, 0) ∈ ps0) →
      (∀ u ∈ ps, u ∈ ps0) →
      s ∈ extractUtf16Aux minLen cur ps →
      minLen ≤ s.length ∧ ∀ c ∈ s, printableByte c = true ∧ (c, 0) ∈ ps0 := by
  intro ps
  induction ps with
  | nil =>
    intro minLen cur ps0 s hcur _ hs
    simp only [extractUtf16Aux] at hs
    split at hs
    · next hlen =>
      rcases List.mem_singleton.mp hs with rfl
      exact ⟨hlen, hcur⟩
    · simp at hs
  | cons u rest ih =>
    intro minLen cur ps0 s hcur hps hs
    obtain ⟨lo, hi⟩ := u
    simp only [extractUtf16Aux] at hs
    split at hs
    · next hu =>
      have hhi : hi = 0 := by
        have := (Bool.and_eq_true _ _).mp hu
        exact beq_iff_eq.mp this.1
      have hlo : printableByte lo = true := ((Bool.and_eq_true _ _).mp hu).2
      refine ih minLen (cur ++ [lo]) ps0 s (fun c hc => ?_)
        (fun v hv => hps v (List.mem_cons_of_mem _ hv)) hs
      rcases List.mem_append.mp hc with h | h
      · exact hcur c h
      · rcases List.mem_singleton.mp h with rfl
        exact ⟨hlo, by
          have := hps (c, hi) (List.mem_cons_self _ _)
          rwa [hhi] at this⟩
    · split at hs
      · next hlen =>
        rcases List.mem_cons.mp hs with rfl | hs'
        · exact ⟨hlen, hcur⟩
        · exact ih minLen [] ps0 s (by simp)
            (fun v hv => hps v (List.mem_cons_of_mem _ hv)) hs'
      · exact ih minLen [] ps0 s (by simp)
          (fun v hv => hps v (List.mem_cons_of_mem _ hv)) hs

/-- A successful padding step splits the input at `n + q` for some
`q` at most the padding budget `p`. -/
theorem b64TryPad_shape :
    ∀ (p : Nat) (l : List Nat) (n : Nat) (tok rest : List Nat),
      b64TryPad l n p = some (tok, rest) →
      ∃ q, q ≤ p ∧ tok = l.take (n + q) ∧ rest = l.drop (n + q) := by
  intro p
  induction p with
  | zero =>
    intro l n tok rest h
    simp only [b64TryPad] at h
    split at h
    · simp only [Option.some.injEq, Prod.mk.injEq] at h
      exact ⟨0, Nat.le_refl 0, by rw [Nat.add_zero]; exact h.1.symm,
        by rw [Nat.add_zero]; exact h.2.symm⟩
    · exact absurd h (by simp)
  | succ p ih =>
    intro l n tok rest h
    simp only [b64TryPad] at h
    split at h
    · simp only [Option.some.injEq, Prod.mk.injEq] at h
      refine ⟨p + 1, Nat.le_refl _, ?_, ?_⟩
      · rw [show n + (p + 1) = n + p + 1 by omega]; exact h.1.symm
      · rw [show n + (p + 1) = n + p + 1 by omega]; exact h.2.symm
    · rcases ih l n tok rest h with ⟨q, hq, ht, hr⟩
      exact ⟨q, Nat.le_trans hq (Nat.le_succ _), ht, hr⟩

/-- A successful run-length search splits the input at `n' + q` with
`22 ≤ n' ≤ n`, at most two `=` characters, all lying in the `=`-run
after position `n'`. -/
theorem b64SearchN_shape :
    ∀ (n : Nat) (l : List Nat) (tok rest : List Nat),
      b64SearchN l n = some (tok, rest) →
      ∃ n' q, 22 ≤ n' ∧ n' ≤ n ∧ q ≤ 2 ∧
        q ≤ ((l.drop n').takeWhile (fun c => c == 61)).length ∧
        tok = l.take (n' + q) ∧ rest = l.drop (n' + q) := by
  intro n
  induction n with
  | zero => intro l tok rest h; exact absurd h (by simp [b64SearchN])
  | succ n ih =>
    intro l tok rest h
    simp only [b64SearchN] at h
    split at h
    · exact absurd h (by simp)
    · next hge =>
      split at h
      · next r hr =>
        rcases Option.some.inj h with rfl
        rcases b64TryPad_shape _ _ _ _ _ hr with ⟨q, hq, ht, hrr⟩
        exact ⟨n + 1, q, by omega, Nat.le_refl _, Nat.le_trans hq (Nat.min_le_left _ _),
          Nat.le_trans hq (Nat.min_le_right _ _), ht, hrr⟩
      · rcases ih l tok rest h with ⟨n', q, h1, h2, h3, h4, h5, h6⟩
        exact ⟨n', q, h1, Nat.le_trans h2 (Nat.le_succ _), h3, h4, h5, h6⟩

/-- Shape of every `BASE64_KEY_RE` match: at least 22 base64-alphabet
characters followed by at most two `=` characters. -/
def b64TokenShape (tok : List Nat) : Prop :=
  ∃ u q, tok = u ++ List.replicate q 61 ∧ 22 ≤ u.length ∧
    (∀ c ∈ u, isB64Ch c = true) ∧ q ≤ 2

/-- A match of `BASE64_KEY_RE` at one position has the token shape. -/
theorem b64TryAt_shape (prev : Option Nat) (l : List Nat) (tok rest : List Nat)
    (h : b64TryAt prev l = some (tok, rest)) : b64TokenShape tok := by
  simp only [b64TryAt] at h
  split at h
  · rcases b64SearchN_shape _ _ _ _ h with ⟨n', q, h22, hnR, hq2, hqPad, ht, _⟩
    refine ⟨l.take n', q, ?_, ?_, ?_, hq2⟩
    · rw [ht, List.take_add]
      congr 1
      have hlen : ((l.drop n').take q).length = q := by
        rw [List.length_take]
        have h1 : q ≤ ((l.drop n').takeWhile (fun c => c == 61)).length := hqPad
        have h2 : ((l.drop n').takeWhile (fun c => c == 61)).length ≤ (l.drop n').length :=
          (List.takeWhile_sublist _).length_le
        omega
      refine List.eq_replicate_iff.mpr ⟨hlen, fun b hb => ?_⟩
      have := mem_take_takeWhile (p := fun c => c == 61) (l.drop n') q hqPad b hb
      exact beq_iff_eq.mp this
    · rw [List.length_take]
      have h1 : n' ≤ (l.takeWhile isB64Ch).length := hnR
      have h2 : (l.takeWhile isB64Ch).length ≤ l.length := (List.takeWhile_sublist _).length_le
      omega
    · exact mem_take_takeWhile (p := isB64Ch) l n' hnR
  · exact absurd h (by simp)

/-- Every token emitted by the findall loop has the token shape. -/
theorem b64Scan_sound :
    ∀ (f : Nat) (prev : Option Nat) (l : List Nat) (tok : List Nat),
      tok ∈ b64Scan f prev l → b64TokenShape tok := by
  intro f
  induction f with
  | zero => intro prev l tok h; exact absurd h (by simp [b64Scan])
  | succ f ih =>
    intro prev l tok h
    match l with
    | [] => exact absurd h (by simp [b64Scan])
    | c :: rest =>
      simp only [b64Scan] at h
      split at h
      · next t rest' hTry =>
        rcases List.mem_cons.mp h with rfl | h'
        · exact b64TryAt_shape _ _ _ _ hTry
        · exact ih _ _ _ h'
      · exact ih _ _ _ h

/-- `ASCII_KV_RE` cannot match at the start of a word run longer than 32
characters: every candidate key end lands on a word character, never on
the `=`. -/
theorem asciiKvTry_none_of_long (w : List Nat) (t : List Nat)
    (hw : ∀ c ∈ w, wordByte c = true) (hl : 32 < w.length) :
    asciiKvTry (w ++ 61 :: t) = none := by
  have h61 : wordByte 61 = false := by decide
  have hkey : (w ++ 61 :: t).takeWhile wordByte = w := takeWhile_append_run w 61 t hw h61
  have h32 : ¬ w.length ≤ 32 := by omega
  simp [asciiKvTry, hkey, h32]

/-- `ASCII_KV_RE` at the start of a word run of exactly 32 characters
followed by `=` and a value byte: the match takes the whole run as key
and the greedy value run capped at 128 bytes. -/
theorem asciiKvTry_some_32 (w : List Nat) (b : Nat) (t : List Nat)
    (hw : ∀ c ∈ w, wordByte c = true) (hl : w.length = 32) (hb : valueByte b = true) :
    asciiKvTry (w ++ 61 :: b :: t) =
      some (w, ((b :: t).takeWhile valueByte).take 128,
        (b :: t).drop ((((b :: t).takeWhile valueByte).take 128).length)) := by
  have h61 : wordByte 61 = false := by decide
  have hkey : (w ++ 61 :: b :: t).takeWhile wordByte = w := takeWhile_append_run w 61 _ hw h61
  have hdrop : (w ++ 61 :: b :: t).dropWhile wordByte = 61 :: b :: t :=
    dropWhile_append_run w 61 _ hw h61
  have hvlen : 1 ≤ (((b :: t).takeWhile valueByte).take 128).length := by
    rw [List.length_take]
    have : (b :: t).takeWhile valueByte = b :: t.takeWhile valueByte := by
      simp [List.takeWhile_cons, hb]
    rw [this]
    simp
  simp [asciiKvTry, hkey, hdrop, hl, hvlen, hb]

/-- One findall step with no match at the current position. -/
theorem asciiKvScan_cons_none (f : Nat) (c : Nat) (rest : List Nat)
    (h : asciiKvTry (c :: rest) = none) :
    asciiKvScan (f + 1) (c :: rest) = asciiKvScan f rest := by
  simp [asciiKvScan, h]

/-- One findall step with a match at the current position. -/
theorem asciiKvScan_cons_some (f : Nat) (c : Nat) (rest : List Nat)
    (k v rest' : List Nat) (h : asciiKvTry (c :: rest) = some (k, v, rest')) :
    asciiKvScan (f + 1) (c :: rest) = (k, v) :: asciiKvScan f rest' := by
  simp [asciiKvScan, h]

/-- Findall on a buffer that begins with an over-long word run, then `=`
and a valid value byte: the scan fails at each of the first
`w.length - 32` positions and then matches with the trailing 32
characters of the run as key. -/
theorem asciiKvScan_overlong :
    ∀ (w : List Nat) (f : Nat) (b : Nat) (t : List Nat),
      (∀ c ∈ w, wordByte c = true) → 32 < w.length → valueByte b = true →
      (w ++ 61 :: b :: t).length < f →
      ∃ v tl, asciiKvScan f (w ++ 61 :: b :: t) =
        (w.drop (w.length - 32), v) :: tl := by
  intro w
  induction w with
  | nil =>
    intro f b t _ hl _ _
    simp at hl
  | cons c w' ih =>
    intro f b t hw hl hb hf
    match f, hf with
    | f + 1, hf =>
      have hTry : asciiKvTry ((c :: w') ++ 61 :: b :: t) = none :=
        asciiKvTry_none_of_long _ _ hw hl
      rw [List.cons_append] at hTry
      rw [List.cons_append, asciiKvScan_cons_none f _ _ hTry]
      have hw'' : ∀ d ∈ w', wordByte d = true := fun d hd => hw d (List.mem_cons_of_mem _ hd)
      by_cases hw' : 32 < w'.length
      · have hf' : (w' ++ 61 :: b :: t).length < f := by
          simp only [List.cons_append, List.length_cons] at hf
          omega
        rcases ih f b t hw'' hw' hb hf' with ⟨v, tl, hscan⟩
        refine ⟨v, tl, ?_⟩
        rw [hscan]
        have hdrop : (c :: w').length - 32 = (w'.length - 32) + 1 := by
          simp only [List.length_cons]
          omega
        rw [hdrop, List.drop_succ_cons]
      · have hl' : w'.length = 32 := by
          simp only [List.length_cons] at hl
          omega
        match f with
        | 0 =>
          exfalso
          simp only [List.cons_append, List.length_cons] at hf
          omega
        | f' + 1 =>
          obtain ⟨d, w'', rfl⟩ : ∃ d w'', w' = d :: w'' := by
            cases w' with
            | nil => simp at hl'
            | cons d w'' => exact ⟨d, w'', rfl⟩
          have hTry2 := asciiKvTry_some_32 (d :: w'') b t hw'' hl' hb
          rw [List.cons_append] at hTry2
          rw [List.cons_append, asciiKvScan_cons_some f' _ _ _ _ _ hTry2]
          refine ⟨((b :: t).takeWhile valueByte).take 128,
            asciiKvScan f' ((b :: t).drop
              ((((b :: t).takeWhile valueByte).take 128).length)), ?_⟩
          have hdrop : (c :: d :: w'').length - 32 = 1 := by
            simp only [List.length_cons] at hl' ⊢
            omega
          rw [hdrop, List.drop_succ_cons, List.drop_zero]

/-- Unfolding of the body of `scan_blob` into its gate components. -/
theorem scanBlobBody_eq (data : List Nat) :
    scanBlobBody data =
      if keywordHits data = [] ∧ asciiKvPairs data = [] ∧ utf16KvPairs data = [] ∧
          ¬ distinctCount data < 200 then none
      else
        some { keyword_hits := if keywordHits data = [] then none else some (keywordHits data)
               ascii_kv := if asciiKvPairs data = [] then none else some (asciiKvPairs data)
               utf16_kv := if utf16KvPairs data = [] then none else some (utf16KvPairs data)
               low_entropy_hint := decide (distinctCount data < 200)
               size := data.length } := rfl

/-! ### Claim theorems -/

/-- C1: `scan_blob` evaluates a file as a blob candidate iff its buffer
length lies in the inclusive range `[32, 1048576]`: outside the range the
result is always `none`, a non-`none` result implies the length is in
range, and inside the range the scan proceeds to the signal gates
(`scanBlobBody`). -/
theorem scan_blob_size_gate (data : List Nat) :
    ((data.length < 32 ∨ 1048576 < data.length) → scan_blob data = none) ∧
    (scan_blob data ≠ none → 32 ≤ data.length ∧ data.length ≤ 1048576) ∧
    (32 ≤ data.length → data.length ≤ 1048576 → scan_blob data = scanBlobBody data) := by
  by_cases hg : data.length < 32 ∨ 1048576 < data.length
  · have hnone : scan_blob data = none := by simp [scan_blob, hg]
    exact ⟨fun _ => hnone, fun hne => absurd hnone hne,
      fun h1 h2 => absurd hg (by omega)⟩
  · have hbody : scan_blob data = scanBlobBody data := by simp [scan_blob, hg]
    push_neg at hg
    exact ⟨fun h => absurd h (by omega), fun _ => ⟨by omega, by omega⟩, fun _ _ => hbody⟩

/-- Witness for C1 at the 31-byte and 32-byte boundaries. -/
theorem scan_blob_size_gate_witness :
    scan_blob (List.replicate 31 0) = none ∧
    scan_blob (List.replicate 32 0) = scanBlobBody (List.replicate 32 0) ∧
    scan_blob (List.replicate 32 0) ≠ none :=
  ⟨(scan_blob_size_gate (List.replicate 31 0)).1 (by decide),
   (scan_blob_size_gate (List.replicate 32 0)).2.2 (by decide) (by decide),
   by decide⟩

/-- C4: for a buffer that passes the size gate, `scan_blob` returns a
verdict with the low-entropy flag set iff the number of distinct byte
values is strictly below 200; with at least 200 distinct values no
returned verdict ever has the flag, keyword hits notwithstanding. -/
theorem scan_blob_entropy_flag (data : List Nat)
    (h1 : 32 ≤ data.length) (h2 : data.length ≤ 1048576) :
    ((∃ v, scan_blob data = some v ∧ v.low_entropy_hint = true) ↔
      distinctCount data < 200) ∧
    (200 ≤ distinctCount data →
      ∀ v, scan_blob data = some v → v.low_entropy_hint = false) := by
  have hg : ¬ (data.length < 32 ∨ 1048576 < data.length) := by omega
  have hbody : scan_blob data = scanBlobBody data := by simp [scan_blob, hg]
  rw [hbody, scanBlobBody_eq]
  by_cases hd : distinctCount data < 200
  · have hcond : ¬ (keywordHits data = [] ∧ asciiKvPairs data = [] ∧
        utf16KvPairs data = [] ∧ ¬ distinctCount data < 200) := fun h => h.2.2.2 hd
    rw [if_neg hcond]
    refine ⟨⟨fun _ => hd, fun _ => ⟨_, rfl, by simpa using hd⟩⟩,
      fun h200 => absurd hd (by omega)⟩
  · by_cases hsig : keywordHits data = [] ∧ asciiKvPairs data = [] ∧ utf16KvPairs data = []
    · rw [if_pos ⟨hsig.1, hsig.2.1, hsig.2.2, hd⟩]
      refine ⟨⟨?_, fun h => absurd h hd⟩, fun _ v hv => absurd hv (by simp)⟩
      rintro ⟨v, hv, _⟩
      exact absurd hv (by simp)
    · have hcond : ¬ (keywordHits data = [] ∧ asciiKvPairs data = [] ∧
          utf16KvPairs data = [] ∧ ¬ distinctCount data < 200) :=
        fun h => hsig ⟨h.1, h.2.1, h.2.2.1⟩
      rw [if_neg hcond]
      constructor
      · constructor
        · rintro ⟨v, hv, hflag⟩
          rcases Option.some.inj hv with rfl
          exact absurd (of_decide_eq_true hflag) hd
        · intro h; exact absurd h hd
      · intro _ v hv
        rcases Option.some.inj hv with rfl
        simpa using hd

/-- Witness for C4 on a 32-byte constant buffer. -/
theorem scan_blob_entropy_flag_witness :
    ∃ v, scan_blob (List.replicate 32 0) = some v ∧ v.low_entropy_hint = true :=
  (scan_blob_entropy_flag (List.replicate 32 0) (by decide) (by decide)).1.mpr (by decide)

/-- C5: for a buffer that passes the size gate, `scan_blob` returns a
verdict iff at least one of the keyword, KV and low-entropy signal groups
fired; the verdict carries the buffer size and exactly the groups that
fired, with empty groups absent rather than present-but-empty. -/
theorem scan_blob_signal_groups (data : List Nat)
    (h1 : 32 ≤ data.length) (h2 : data.length ≤ 1048576) :
    (scan_blob data ≠ none ↔
      (keywordHits data ≠ [] ∨ asciiKvPairs data ≠ [] ∨ utf16KvPairs data ≠ [] ∨
        distinctCount data < 200)) ∧
    (∀ v, scan_blob data = some v →
      v.size = data.length ∧
      v.keyword_hits = (if keywordHits data = [] then none else some (keywordHits data)) ∧
      v.ascii_kv = (if asciiKvPairs data = [] then none else some (asciiKvPairs data)) ∧
      v.utf16_kv = (if utf16KvPairs data = [] then none else some (utf16KvPairs data)) ∧
      v.low_entropy_hint = decide (distinctCount data < 200) ∧
      v.keyword_hits ≠ some [] ∧ v.ascii_kv ≠ some [] ∧ v.utf16_kv ≠ some []) := by
  have hg : ¬ (data.length < 32 ∨ 1048576 < data.length) := by omega
  have hbody : scan_blob data = scanBlobBody data := by simp [scan_blob, hg]
  rw [hbody, scanBlobBody_eq]
  by_cases hcond : keywordHits data = [] ∧ asciiKvPairs data = [] ∧ utf16KvPairs data = [] ∧
      ¬ distinctCount data < 200
  · rw [if_pos hcond]
    constructor
    · constructor
      · intro h; exact absurd rfl h
      · intro h
        rcases hcond with ⟨hk, ha, hu, hd⟩
        rcases h with h | h | h | h
        · exact absurd hk h
        · exact absurd ha h
        · exact absurd hu h
        · exact absurd h hd
    · intro v hv; exact absurd hv (by simp)
  · rw [if_neg hcond]
    constructor
    · constructor
      · intro _
        by_contra hno
        push_neg at hno
        have h200 : 200 ≤ distinctCount data := hno.2.2.2
        exact hcond ⟨hno.1, hno.2.1, hno.2.2.1, by omega⟩
      · intro _; simp
    · intro v hv
      rcases Option.some.inj hv with rfl
      refine ⟨rfl, rfl, rfl, rfl, rfl, ?_, ?_, ?_⟩
      · by_cases hk : keywordHits data = [] <;> simp [hk]
      · by_cases ha : asciiKvPairs data = [] <;> simp [ha]
      · by_cases hu : utf16KvPairs data = [] <;> simp [hu]

/-- Witness for C5: the all-zero 32-byte buffer fires only the entropy
signal and yields a verdict. -/
theorem scan_blob_signal_groups_witness :
    scan_blob (List.replicate 32 0) ≠ none :=
  (scan_blob_signal_groups (List.replicate 32 0) (by decide) (by decide)).1.mpr
    (Or.inr (Or.inr (Or.inr (by decide))))

/-- C9: every buffer of 32 to 199 bytes yields a verdict with the
low-entropy flag set, because it can hold at most 199 distinct byte
values, below the 200 threshold. -/
theorem scan_blob_small_buffer_low_entropy (data : List Nat)
    (h1 : 32 ≤ data.length) (h2 : data.length ≤ 199) :
    ∃ v, scan_blob data = some v ∧ v.low_entropy_hint = true := by
  have hd : distinctCount data < 200 :=
    Nat.lt_of_le_of_lt (distinctCount_le_length data) (by omega)
  have hg : ¬ (data.length < 32 ∨ 1048576 < data.length) := by omega
  have hbody : scan_blob data = scanBlobBody data := by simp [scan_blob, hg]
  rw [hbody, scanBlobBody_eq, if_neg (fun h => h.2.2.2 hd)]
  exact ⟨_, rfl, by simpa using hd⟩

/-- Witness for C9 on a 40-byte buffer. -/
theorem scan_blob_small_buffer_low_entropy_witness :
    ∃ v, scan_blob (List.replicate 40 7) = some v ∧ v.low_entropy_hint = true :=
  scan_blob_small_buffer_low_entropy (List.replicate 40 7) (by decide) (by decide)

/-- C2 counterexample: on the wide-encoded buffer `A\0U\0T\0H\0K\0E\0Y\0`
the keyword gate of `scan_blob` records no hit for `AUTHKEY` (its raw
byte substring search cannot see the interleaved zero bytes); in fact it
records no keyword hit at all. -/
theorem wide_authkey_keyword_gate_cex :
    strCodes "AUTHKEY" ∉ keywordHits [65, 0, 85, 0, 84, 0, 72, 0, 75, 0, 69, 0, 89, 0] ∧
    keywordHits [65, 0, 85, 0, 84, 0, 72, 0, 75, 0, 69, 0, 89, 0] = [] := by decide

/-- C2 as amended: the two-byte-little-endian scanner recovers exactly
the string `AUTHKEY` from the wide-encoded buffer, but the keyword gate
records no hit on it (the gate searches raw byte substrings, which the
wide encoding defeats), and the buffer, being 14 bytes, is also rejected
by the size gate. -/
theorem wide_authkey_recovered_gate_misses :
    extract_utf16le_strings [65, 0, 85, 0, 84, 0, 72, 0, 75, 0, 69, 0, 89, 0] 4 =
      [strCodes "AUTHKEY"] ∧
    keywordHits [65, 0, 85, 0, 84, 0, 72, 0, 75, 0, 69, 0, 89, 0] = [] ∧
    scan_blob [65, 0, 85, 0, 84, 0, 72, 0, 75, 0, 69, 0, 89, 0] = none := by decide

/-- C3: on the buffer `localKey=ABCDEF1234567890ABCDEF1234567890` the
ASCII KV extractor produces exactly the pair with key `localKey` and the
32-hex-character value, and `find_keys` applied to the strings recovered
from that buffer reports the value as a hex key candidate. -/
theorem localkey_roundtrip :
    asciiKvPairs (strCodes "localKey=ABCDEF1234567890ABCDEF1234567890") =
      [(strCodes "localKey", strCodes "ABCDEF1234567890ABCDEF1234567890")] ∧
    strCodes "ABCDEF1234567890ABCDEF1234567890" ∈
      (find_keys
        (extract_ascii_strings (strCodes "localKey=ABCDEF1234567890ABCDEF1234567890") 4 ++
         extract_utf16le_strings (strCodes "localKey=ABCDEF1234567890ABCDEF1234567890") 4)).1 := by
  decide

/-- C6: for every buffer and every positive minimum length, each string
recovered by the single-byte scanner has at least the minimum length and
only characters in the printable range 32..126, and each string
recovered by the two-byte scanner additionally originates from two-byte
units of the buffer whose high byte is zero. -/
theorem recovered_string_invariants (data : List Nat) (minLen : Nat) (hm : 1 ≤ minLen) :
    (∀ s ∈ extract_ascii_strings data minLen,
        minLen ≤ s.length ∧ ∀ c ∈ s, 32 ≤ c ∧ c ≤ 126) ∧
    (∀ s ∈ extract_utf16le_strings data minLen,
        minLen ≤ s.length ∧ ∀ c ∈ s, (32 ≤ c ∧ c ≤ 126) ∧ (c, 0) ∈ toPairs data) := by
  constructor
  · intro s hs
    rcases extractAsciiAux_inv data minLen [] s (by simp) hs with ⟨hlen, hch⟩
    refine ⟨hlen, fun c hc => ?_⟩
    have hp := hch c hc
    simp only [printableByte, Bool.and_eq_true, decide_eq_true_eq] at hp
    omega
  · intro s hs
    rcases extractUtf16Aux_inv (toPairs data) minLen [] (toPairs data) s
      (by simp) (fun u hu => hu) hs with ⟨hlen, hch⟩
    refine ⟨hlen, fun c hc => ?_⟩
    rcases hch c hc with ⟨hp, hpair⟩
    simp only [printableByte, Bool.and_eq_true, decide_eq_true_eq] at hp
    exact ⟨⟨hp.1, by omega⟩, hpair⟩

/-- Witness for C6 on one ASCII and one wide buffer. -/
theorem recovered_string_invariants_witness :
    4 ≤ (strCodes "ABCD").length ∧ 4 ≤ (strCodes "WXYZ").length :=
  ⟨((recovered_string_invariants (strCodes "ABCD") 4 (by decide)).1
      (strCodes "ABCD") (by decide)).1,
   ((recovered_string_invariants [87, 0, 88, 0, 89, 0, 90, 0] 4 (by decide)).2
      (strCodes "WXYZ") (by decide)).1⟩

/-- C7 counterexample: the base64 matcher does not report the token
`ABCDEFGHIJKLMNOPQRSTUV==` with its padding; on that input the single
reported candidate is the token without the `==` (a trailing word
boundary cannot hold after `=`). -/
theorem b64_padding_dropped_cex :
    strCodes "ABCDEFGHIJKLMNOPQRSTUV==" ∉
      b64Findall (strCodes "ABCDEFGHIJKLMNOPQRSTUV==") ∧
    b64Findall (strCodes "ABCDEFGHIJKLMNOPQRSTUV==") =
      [strCodes "ABCDEFGHIJKLMNOPQRSTUV"] := by decide

/-- C7 as amended: every reported base64 key candidate consists of at
least 22 base64-alphabet characters followed by at most two `=` padding
characters; a 22-character token followed by `==` at the end of the
input is reported without its padding, and the padding is included when
a word character follows it. -/
theorem b64_key_candidate_shape :
    (∀ (s t : List Nat), t ∈ b64Findall s → b64TokenShape t) ∧
    b64Findall (strCodes "ABCDEFGHIJKLMNOPQRSTUV==") =
      [strCodes "ABCDEFGHIJKLMNOPQRSTUV"] ∧
    b64Findall (strCodes "ABCDEFGHIJKLMNOPQRSTUV==A") =
      [strCodes "ABCDEFGHIJKLMNOPQRSTUV=="] :=
  ⟨fun _ _ ht => b64Scan_sound _ _ _ _ ht, by decide, by decide⟩

/-- Witness for C7 applying the shape theorem to a concrete match. -/
theorem b64_key_candidate_shape_witness :
    b64TokenShape (strCodes "ABCDEFGHIJKLMNOPQRSTUV") :=
  b64_key_candidate_shape.1 (strCodes "ABCDEFGHIJKLMNOPQRSTUV==")
    (strCodes "ABCDEFGHIJKLMNOPQRSTUV") (by decide)

/-- C8: the classifier is a pure function (equal string sequences give
equal category lists), and permuting the input sequence never changes
which strings belong to a category — for `find_json_like` and for the
`uniq` and `uniq_preserve` deduplications themselves — though the
first-seen order of the deduplicated lists may differ. -/
theorem classifier_perm_invariant (l l' : List (List Nat)) (hperm : l.Perm l') :
    (∀ m m' : List (List Nat), m = m' → find_json_like m = find_json_like m') ∧
    (∀ s, s ∈ find_json_like l ↔ s ∈ find_json_like l') ∧
    (∀ s, s ∈ uniq l ↔ s ∈ uniq l') ∧
    (∀ s, s ∈ uniq_preserve l ↔ s ∈ uniq_preserve l') := by
  refine ⟨fun m m' h => by rw [h], fun s => ?_, fun s => ?_, fun s => ?_⟩
  · simp only [find_json_like, mem_uniq, List.mem_filter]
    rw [hperm.mem_iff]
  · rw [mem_uniq, mem_uniq, hperm.mem_iff]
  · rw [mem_uniq_preserve, mem_uniq_preserve, hperm.mem_iff]

/-- Witness for C8 on a two-element permutation with a duplicate. -/
theorem classifier_perm_invariant_witness :
    strCodes "a\x7b:\x7d" ∈
        find_json_like [strCodes "z", strCodes "a\x7b:\x7d", strCodes "z"] ↔
      strCodes "a\x7b:\x7d" ∈
        find_json_like [strCodes "a\x7b:\x7d", strCodes "z", strCodes "z"] :=
  (classifier_perm_invariant [strCodes "z", strCodes "a\x7b:\x7d", strCodes "z"]
      [strCodes "a\x7b:\x7d", strCodes "z", strCodes "z"] (by decide)).2.1
    (strCodes "a\x7b:\x7d")

/-- C10 counterexample: in the buffer `ab=c` + 33 times `x` + `=v` the
word run `c` + 33 times `x` (34 word characters) is immediately followed
by `=` and a valid value, yet no reported pair has the trailing 32
characters of that run as key: the earlier match `ab=...` swallows the
whole run as its value. -/
theorem ascii_kv_containing_run_cex :
    asciiKvFindall (strCodes "ab=c" ++ List.replicate 33 120 ++ strCodes "=v") =
      [(strCodes "ab", strCodes "c" ++ List.replicate 33 120 ++ strCodes "=v")] ∧
    ¬ ∃ kv ∈ asciiKvFindall (strCodes "ab=c" ++ List.replicate 33 120 ++ strCodes "=v"),
        kv.1 = List.replicate 32 120 := by decide

/-- C10 as amended: for every buffer that begins with a run of strictly
more than 32 word characters immediately followed by `=` and a byte
allowed in values, the ASCII KV extractor does not reject the pair: its
first reported pair has exactly the trailing 32 characters of the run as
key. -/
theorem ascii_kv_overlong_key_truncated (w : List Nat) (b : Nat) (t : List Nat)
    (hw : ∀ c ∈ w, wordByte c = true) (hl : 32 < w.length) (hb : valueByte b = true) :
    ∃ v tl, asciiKvFindall (w ++ 61 :: b :: t) =
      (w.drop (w.length - 32), v) :: tl :=
  asciiKvScan_overlong w ((w ++ 61 :: b :: t).length + 1) b t hw hl hb (by omega)

/-- Witness for C10 on a 33-character run. -/
theorem ascii_kv_overlong_key_truncated_witness :
    ∃ v tl, asciiKvFindall (List.replicate 33 120 ++ 61 :: 118 :: []) =
      ((List.replicate 33 120).drop ((List.replicate 33 120).length - 32), v) :: tl :=
  ascii_kv_overlong_key_truncated (List.replicate 33 120) 118 []
    (by decide) (by decide) (by decide)
